import Mathlib

/-!
A verification model of the term-definition Obsidian plugin (`src/main.ts`).

Strings are modelled as `List Char`.  The JavaScript constructs that carry the
program's logic are embedded explicitly:

* `String.prototype.replace` with a non-global regex of the shape
  `\b<escaped literal>\b` and the `i` flag is modelled by a leftmost scan for a
  case-insensitive whole-word occurrence (`findFirstMatch`);
* regex word characters are `[A-Za-z0-9_]` and `\b` is the usual xor-of-word
  boundary test (`boundAt`);
* the metacharacter escaping of the source is `escapeRegExp`, and
  `regexLiteralOf` gives the literal string matched by the escaped pattern body;
* `String.prototype.replace` with a plain string pattern is `replaceFirstStr`
  (first occurrence only);
* parsed JSON values are the inductive `Json`; JavaScript template-literal
  stringification is `jsTemplate`, truthiness is the negation of `jsFalsy`,
  and property access on an arbitrary value is `jsGet`.

The case-insensitive comparison is ASCII case folding, which coincides with
the JavaScript `i` flag on the ASCII inputs relevant here.
-/

def isWordChar (c : Char) : Bool :=
  c.isAlpha || c.isDigit || c == '_'

def lowerEq (a b : Char) : Bool :=
  a.toLower == b.toLower

def wordAt (s : List Char) (i : Nat) : Bool :=
  match s.get? i with
  | some c => isWordChar c
  | none => false

/-- The JavaScript regex `\b` assertion at position `i` of `s`. -/
def boundAt (s : List Char) (i : Nat) : Bool :=
  (decide (0 < i) && wordAt s (i - 1)) != wordAt s i

def ciEq : List Char → List Char → Bool
  | [], [] => true
  | a :: as, b :: bs => lowerEq a b && ciEq as bs
  | _, _ => false

/-- Whether the pattern `\b<t>\b` (flag `i`) matches `s` at position `i`. -/
def matchAt (s t : List Char) (i : Nat) : Bool :=
  boundAt s i && ciEq ((s.drop i).take t.length) t && boundAt s (i + t.length)

/-- Leftmost-match scan of a regex engine: try positions `s`, `s+1`, …. -/
def scanFirst (p : Nat → Bool) : Nat → Nat → Option Nat
  | 0, _ => none
  | fuel + 1, s => if p s then some s else scanFirst p fuel (s + 1)

def findFirstMatch (s t : List Char) : Option Nat :=
  scanFirst (matchAt s t) (s.length + 1) 0

/-- The character class of `term.replace(/[.*+?^${}()|[\]\\]/g, "\\$&")`.
(The braces are written via `Char.ofNat`.) -/
def isRegexMeta (c : Char) : Bool :=
  c == '.' || c == '*' || c == '+' || c == '?' || c == '^' || c == '$' ||
  c == Char.ofNat 123 || c == Char.ofNat 125 || c == '(' || c == ')' ||
  c == '|' || c == '[' || c == ']' || c == '\\'

/-- `term.replace(/[.*+?^${}()|[\]\\]/g, "\\$&")` from `createSmartLink`. -/
def escapeRegExp : List Char → List Char
  | [] => []
  | c :: rest => (if isRegexMeta c then ['\\', c] else [c]) ++ escapeRegExp rest

/-- The literal string matched by a regex body made of literal atoms,
where `\x` is the escaped literal `x`. -/
def regexLiteralOf : List Char → List Char
  | [] => []
  | c :: rest =>
    if c == '\\' then
      match rest with
      | [] => ['\\']
      | d :: rest2 => d :: regexLiteralOf rest2
    else c :: regexLiteralOf rest

/-- `createSmartLink(originalText, term)` of `src/main.ts`:
escape the term, build `new RegExp("\\b" + escapedTerm + "\\b", "i")`, and
replace the first match by `[[<term>|<match>]]`.  The constructed regex
matches exactly the literal `regexLiteralOf (escapeRegExp term)` between word
boundaries, case-insensitively. -/
def createSmartLink (originalText term : List Char) : List Char :=
  let escapedTerm := escapeRegExp term
  let pat := regexLiteralOf escapedTerm
  match findFirstMatch originalText pat with
  | none => originalText
  | some i =>
    originalText.take i ++ ("[[".data) ++ term ++ ("|".data) ++
      (originalText.drop i).take pat.length ++ ("]]".data) ++
      originalText.drop (i + pat.length)

/-- Does the haystack start with the given leading segment?
(`String.prototype.startsWith`.) -/
def strStartsWith : List Char → List Char → Bool
  | _, [] => true
  | [], _ :: _ => false
  | a :: as, b :: bs => a == b && strStartsWith as bs

/-- Position `i` of `s` starts an occurrence of `pat`. -/
def subAt (s pat : List Char) (i : Nat) : Bool :=
  strStartsWith (s.drop i) pat

/-- Index of the first occurrence of `pat` in `s` (`String.prototype.indexOf`). -/
def findSub (s pat : List Char) : Option Nat :=
  scanFirst (subAt s pat) (s.length + 1) 0

/-- `s.replace(pat, rep)` with a plain-string pattern: replace the first
occurrence only. -/
def replaceFirstStr (s pat rep : List Char) : List Char :=
  match findSub s pat with
  | none => s
  | some i => s.take i ++ rep ++ s.drop (i + pat.length)

/-- Parsed JSON values (the result of a successful `JSON.parse`). -/
inductive Json where
  | null
  | bool (b : Bool)
  | num (n : Int)
  | str (s : List Char)
  | arr (elems : List Json)
  | obj (fields : List (List Char × Json))

mutual

/-- JavaScript `String(v)` / template-literal stringification of a value. -/
def jsTemplate : Json → List Char
  | .null => "null".data
  | .bool b => if b then "true".data else "false".data
  | .num n => (toString n).data
  | .str s => s
  | .arr xs => jsTemplateArr xs
  | .obj _ => "[object Object]".data

/-- `Array.prototype.join(",")` as used by `String(array)`; a `null` element
stringifies to the empty string. -/
def jsTemplateArr : List Json → List Char
  | [] => []
  | [x] => jsTemplateElem x
  | x :: y :: xs => jsTemplateElem x ++ ',' :: jsTemplateArr (y :: xs)

def jsTemplateElem : Json → List Char
  | .null => []
  | .bool b => if b then "true".data else "false".data
  | .num n => (toString n).data
  | .str s => s
  | .arr xs => jsTemplateArr xs
  | .obj _ => "[object Object]".data

end

/-- Template-literal stringification where the value may be `undefined`
(an absent property). -/
def jsTemplateOpt : Option Json → List Char
  | none => "undefined".data
  | some j => jsTemplate j

/-- Stringification of an array element inside `Array.prototype.join`:
`undefined` and `null` become the empty string. -/
def jsJoinElem : Option Json → List Char
  | none => []
  | some .null => []
  | some j => jsTemplate j

/-- JavaScript falsiness of a parsed JSON value. -/
def jsFalsy : Json → Bool
  | .null => true
  | .bool b => !b
  | .num n => n == 0
  | .str s => s.isEmpty
  | .arr _ => false
  | .obj _ => false

/-- Property access `v[k]` on a parsed JSON value; `none` is `undefined`.
(`JSON.parse` resolves duplicate keys, so object fields are key-unique.) -/
def jsGet : Json → List Char → Option Json
  | .obj fields, k => (fields.find? (fun f => f.fst == k)).map (fun f => f.snd)
  | _, _ => none

/-- A `TFile` of the host API: full path and basename of the active document. -/
structure TFile where
  path : List Char
  basename : List Char
deriving DecidableEq

/-- `FolderMapping` of `src/main.ts`. -/
structure FolderMapping where
  sourcePath : List Char
  targetPath : List Char
deriving DecidableEq

/-- `TermDefinitionPluginSettings` of `src/main.ts`. -/
structure TermDefinitionPluginSettings where
  apiEndpoint : List Char
  apiKey : List Char
  folderMappings : List FolderMapping
  defaultGlossaryPath : List Char
  llmModel : List Char
deriving DecidableEq

/-- `DEFAULT_SETTINGS` of `src/main.ts`. -/
def DEFAULT_SETTINGS : TermDefinitionPluginSettings :=
  ⟨[], [], [], "Glossary".data, []⟩

/-- The vault (storage collaborator) state: existing folders and files
(path, content), most recently created first. -/
structure Vault where
  folders : List (List Char)
  files : List (List Char × List Char)
deriving DecidableEq

/-- `app.vault.adapter.exists(path)`: any entry (folder or file) at the path. -/
def existsPath (v : Vault) (p : List Char) : Bool :=
  decide (p ∈ v.folders) || v.files.any (fun f => decide (f.fst = p))

/-- The loop body of `getTargetFolder`: scan the mappings in order and return
the `targetPath` of the first whose `sourcePath` is a prefix of `p`. -/
def getTargetFolderGo (p : List Char) : List FolderMapping → Option (List Char)
  | [] => none
  | m :: rest =>
    if strStartsWith p m.sourcePath then some m.targetPath
    else getTargetFolderGo p rest

/-- `getTargetFolder(sourceFile)` of `src/main.ts`. -/
def getTargetFolder (sourceFile : Option TFile)
    (s : TermDefinitionPluginSettings) : List Char :=
  match sourceFile with
  | none => s.defaultGlossaryPath
  | some f => (getTargetFolderGo f.path s.folderMappings).getD s.defaultGlossaryPath

/-- `path.split("/")` (`String.prototype.split` with a one-character
separator; never returns an empty list). -/
def splitOnSlash : List Char → List (List Char)
  | [] => [[]]
  | c :: rest =>
    if c = '/' then [] :: splitOnSlash rest
    else
      match splitOnSlash rest with
      | s :: ss => (c :: s) :: ss
      | [] => [[c]]

/-- The loop of `ensureFolderExists`: `cur` is the accumulated path so far
(with its trailing slash), the remaining segments are walked left to right,
and each accumulated prefix that does not exist is created.  Returns the
final vault and the list of created folder paths in creation order. -/
def ensureAux : Vault → List Char → List (List Char) → Vault × List (List Char)
  | v, _, [] => (v, [])
  | v, cur, seg :: rest =>
    let c := cur ++ seg
    if existsPath v c then ensureAux v (c ++ ['/']) rest
    else
      let r := ensureAux ⟨c :: v.folders, v.files⟩ (c ++ ['/']) rest
      (r.1, c :: r.2)

/-- `ensureFolderExists(path)` of `src/main.ts`. -/
def ensureFolderExists (v : Vault) (path : List Char) : Vault × List (List Char) :=
  ensureAux v [] (splitOnSlash path)

/-- The accumulated prefixes checked by `ensureFolderExists`:
for segments `[A, B, C]` these are `A`, `A/B`, `A/B/C`. -/
def checkPoints (cur : List Char) : List (List Char) → List (List Char)
  | [] => []
  | seg :: rest => (cur ++ seg) :: checkPoints (cur ++ seg ++ ['/']) rest

/-- Errors a pipeline step can raise: `vault.create` on an occupied path
("note already exists"), and a JavaScript `TypeError` (calling `.replace`
on a non-string term). -/
inductive PErr where
  | noteAlreadyExists
  | typeError
deriving DecidableEq

/-- The back-reference line of the note body: present exactly when an active
document is known. -/
def srcLine : Option TFile → List Char
  | some f => "- Source: [[".data ++ f.basename ++ "]]".data
  | none => []

/-- `[a, b, c].join("\n")` over already-stringified elements. -/
def joinLines : List (List Char) → List Char
  | [] => []
  | [x] => x
  | x :: y :: xs => x ++ '\n' :: joinLines (y :: xs)

/-- The note body of `createDefinitionNote`:
`[definition.definition, "", activeFile ? `- Source: [[basename]]` : ""].join("\n")`. -/
def noteContent (j : Json) (activeFile : Option TFile) : List Char :=
  joinLines [jsJoinElem (jsGet j ("definition".data)), [], srcLine activeFile]

/-- The note path stem: targetFolder, a slash, and the stringified term. -/
def stemOf (j : Json) (folder : List Char) : List Char :=
  folder ++ '/' :: jsTemplateOpt (jsGet j ("term".data))

/-- The note path: the stem followed by the ".md" extension. -/
def notePathOf (j : Json) (folder : List Char) : List Char :=
  stemOf j folder ++ ".md".data

/-- `createDefinitionNote(definition)` of `src/main.ts`: route the folder,
ensure the folder chain, compose the body, and `vault.create` the note
(which fails when the path is occupied).  On success it returns
`notePath.replace(".md", "")`.  The vault state at the point of
return/failure is threaded explicitly. -/
def createDefinitionNote (v : Vault) (activeFile : Option TFile)
    (s : TermDefinitionPluginSettings) (j : Json) :
    Vault × Except PErr (List Char) :=
  let targetFolder := getTargetFolder activeFile s
  let v1 := (ensureFolderExists v targetFolder).1
  let content := noteContent j activeFile
  let np := notePathOf j targetFolder
  if existsPath v1 np then (v1, .error .noteAlreadyExists)
  else (⟨v1.folders, (np, content) :: v1.files⟩, .ok (replaceFirstStr np (".md".data) []))

/-- The outcome of one run of `handleTermDefinition`: final vault state, the
argument of `editor.replaceSelection` when it was called, and the user
notice. -/
structure RunResult where
  vault : Vault
  replaced : Option (List Char)
  notice : List Char
deriving DecidableEq

/-- `getDefinitionFromLLM` of `src/main.ts`.  The HTTP call and `JSON.parse`
are host builtins: `requestFailed` models a rejected request or falsy
response, and `payload` is the parse outcome of the reply content (`none`
when `JSON.parse` or the envelope access throws).  All of those are caught
and yield `null`; a successful parse is returned as-is — the
`as TermDefinition` cast performs no field validation. -/
def getDefinitionFromLLM (requestFailed : Bool) (payload : Option Json) :
    Option Json :=
  if requestFailed then none else payload

/-- `handleTermDefinition(editor)` of `src/main.ts`.  `editorSel` is
`editor.getSelection()`.  The `try`/`catch` is modelled by the error
branches: an error after a vault mutation keeps the mutation. -/
def handleTermDefinition (editorSel : List Char) (requestFailed : Bool)
    (payload : Option Json) (v : Vault) (activeFile : Option TFile)
    (s : TermDefinitionPluginSettings) : RunResult :=
  if editorSel.isEmpty then ⟨v, none, "No text selected".data⟩
  else
    match getDefinitionFromLLM requestFailed payload with
    | none => ⟨v, none, "Failed to get definition from API".data⟩
    | some j =>
      if jsFalsy j then ⟨v, none, "Failed to get definition from API".data⟩
      else
        match createDefinitionNote v activeFile s j with
        | (v1, .error _) => ⟨v1, none, "Error creating term definition".data⟩
        | (v1, .ok _) =>
          match jsGet j ("term".data) with
          | some (.str t) =>
            let linkedText := createSmartLink editorSel t
            let linkedText2 :=
              replaceFirstStr linkedText (jsTemplate j) ("undefined".data)
            ⟨v1, some linkedText2, "Term definition created successfully".data⟩
          | _ => ⟨v1, none, "Error creating term definition".data⟩


/-- The empty vault. -/
def vEmpty : Vault := ⟨[], []⟩

/-- The parse result of the raw payload "{}": an object with no fields. -/
def jNoFields : Json := Json.obj []

/-- A well-formed parsed reply with term "zzz". -/
def jC2 : Json :=
  Json.obj [(("term".data), Json.str ("zzz".data)),
            (("definition".data), Json.str ("d".data))]

/-- A well-formed parsed reply whose term contains ".md" as a proper infix
of the note path stem. -/
def jC9 : Json :=
  Json.obj [(("term".data), Json.str ("foo.mdx".data)),
            (("definition".data), Json.str ("d".data))]

/-- A well-formed parsed reply with term "gpu". -/
def jGpu : Json :=
  Json.obj [(("term".data), Json.str ("gpu".data)),
            (("definition".data), Json.str ("a graphics processor".data))]

/-- A folder mapping from the spec's FolderRouter test vector. -/
def mapProjects : FolderMapping :=
  ⟨"Projects".data, "Projects/Glossary".data⟩

/-- Settings holding exactly the mapping above. -/
def sC5 : TermDefinitionPluginSettings :=
  ⟨[], [], [mapProjects], "Glossary".data, []⟩

/-- An active document inside the mapped source folder. -/
def fC5 : TFile := ⟨"Projects/Notes/a.md".data, "a".data⟩

/-- A folder mapping with an empty source path (the shape the settings UI's
Add button pushes: sourcePath "", targetPath ""; here with a target name). -/
def mapEmpty : FolderMapping := ⟨[], "Targets".data⟩

/-- Settings holding exactly the empty-source mapping. -/
def sC10 : TermDefinitionPluginSettings :=
  ⟨[], [], [mapEmpty], "Glossary".data, []⟩

/-- An arbitrary active document. -/
def fC10 : TFile := ⟨"Any/doc.md".data, "doc".data⟩

/-- An active document used for the note-body witness. -/
def fDoc : TFile := ⟨"Notes/doc.md".data, "doc".data⟩

/-- A vault whose glossary already holds a note for "gpu". -/
def vC7 : Vault :=
  ⟨["Glossary".data], [("Glossary/gpu.md".data, "old".data)]⟩

/-- The escaped pattern body matches exactly the literal term: unescaping the
output of `escapeRegExp` gives the term back. -/
theorem regexLiteral_escape (t : List Char) :
    regexLiteralOf (escapeRegExp t) = t := by
  induction t with
  | nil => rfl
  | cons c rest ih =>
    rw [escapeRegExp]
    by_cases h : isRegexMeta c
    · rw [if_pos h]
      show regexLiteralOf ('\\' :: c :: escapeRegExp rest) = c :: rest
      rw [regexLiteralOf]
      simp [ih]
    · rw [if_neg h]
      show regexLiteralOf (c :: escapeRegExp rest) = c :: rest
      have hne : (c == '\\') = false := by
        cases hb : c == '\\'
        · rfl
        · exact absurd (by rw [eq_of_beq hb]; decide) h
      rw [regexLiteralOf.eq_def]
      simp [hne, ih]

theorem scanFirst_eq_none (p : Nat → Bool) :
    ∀ (fuel s : Nat), (∀ j, s ≤ j → j < s + fuel → p j = false) →
    scanFirst p fuel s = none := by
  intro fuel
  induction fuel with
  | zero => intro s _; rfl
  | succ f ih =>
    intro s h
    have hp : p s = false := h s le_rfl (by omega)
    rw [scanFirst, hp]
    exact ih (s + 1) fun j h1 h2 => h j (by omega) (by omega)

theorem scanFirst_eq_some (p : Nat → Bool) :
    ∀ (fuel s i : Nat), s ≤ i → i < s + fuel → p i = true →
    (∀ j, s ≤ j → j < i → p j = false) → scanFirst p fuel s = some i := by
  intro fuel
  induction fuel with
  | zero => intro s i h1 h2 _ _; omega
  | succ f ih =>
    intro s i hsi hlt hp hmin
    cases hps : p s with
    | true =>
      have his : i = s := by
        by_contra hne
        have hsl : s < i := lt_of_le_of_ne hsi fun he => hne he.symm
        have := hmin s le_rfl hsl
        rw [this] at hps
        exact Bool.noConfusion hps
      subst his
      rw [scanFirst, hps]
      simp
    | false =>
      have hsl : s < i := by
        rcases Nat.lt_or_ge s i with h | h
        · exact h
        · have : i = s := le_antisymm (by omega) hsi
          rw [this, hps] at hp
          exact Bool.noConfusion hp
      rw [scanFirst, hps]
      exact ih (s + 1) i (by omega) (by omega) hp
        fun j h1 h2 => hmin j (by omega) h2

theorem wordAt_lt (s : List Char) (i : Nat) (h : wordAt s i = true) :
    i < s.length := by
  by_contra hc
  push_neg at hc
  rw [wordAt, List.get?_eq_none.mpr hc] at h
  exact Bool.noConfusion h

theorem boundAt_le (s : List Char) (i : Nat) (h : boundAt s i = true) :
    i ≤ s.length := by
  rw [boundAt] at h
  cases hw : wordAt s i with
  | true => exact le_of_lt (wordAt_lt s i hw)
  | false =>
    rw [hw] at h
    cases hl : (decide (0 < i) && wordAt s (i - 1)) with
    | false => rw [hl] at h; exact absurd h (by decide)
    | true =>
      rw [Bool.and_eq_true] at hl
      have hpos : 0 < i := of_decide_eq_true hl.1
      have := wordAt_lt s (i - 1) hl.2
      omega

theorem matchAt_le (s t : List Char) (i : Nat) (h : matchAt s t i = true) :
    i ≤ s.length := by
  rw [matchAt, Bool.and_eq_true, Bool.and_eq_true] at h
  exact boundAt_le s i h.1.1

/-- Claim C3: `createSmartLink` escapes the term into a literal pattern and
matches it case-insensitively between word boundaries; only the first match
is replaced, by the link construct whose display label is the exact matched
surface text and whose target is the parser-produced term; the given example
computes as specified, and when no whole-word match exists the original text
is returned unchanged. -/
theorem smartLink_spec :
    createSmartLink ("A GPU is a graphics processor".data) ("gpu".data) =
      ("A [[gpu|GPU]] is a graphics processor".data) ∧
    (∀ sel term : List Char,
      (∀ i, i ≤ sel.length → matchAt sel term i = false) →
      createSmartLink sel term = sel) ∧
    (∀ (sel term : List Char) (i : Nat),
      matchAt sel term i = true →
      (∀ j, j < i → matchAt sel term j = false) →
      createSmartLink sel term =
        sel.take i ++ ("[[".data) ++ term ++ ("|".data) ++
          (sel.drop i).take term.length ++ ("]]".data) ++
          sel.drop (i + term.length)) := by
  refine ⟨by decide, ?_, ?_⟩
  · intro sel term h
    have hnone : findFirstMatch sel term = none := by
      rw [findFirstMatch]
      exact scanFirst_eq_none (matchAt sel term) (sel.length + 1) 0
        fun j _ h2 => h j (by omega)
    simp [createSmartLink, regexLiteral_escape, hnone]
  · intro sel term i hm hmin
    have hsome : findFirstMatch sel term = some i := by
      rw [findFirstMatch]
      exact scanFirst_eq_some (matchAt sel term) (sel.length + 1) 0 i
        (by omega) (by have := matchAt_le sel term i hm; omega) hm
        fun j _ h2 => hmin j h2
    simp [createSmartLink, regexLiteral_escape, hsome]

/-- Claim C3 witness: a term with no whole-word occurrence leaves the text
unchanged, as an instance of the general theorem. -/
theorem smartLink_spec_witness :
    createSmartLink ("no match here".data) ("gpu".data) = ("no match here".data) :=
  smartLink_spec.2.1 ("no match here".data) ("gpu".data) (by decide)

/-- Claim C4 counterexample: the term "C++" occurs standalone in
"use C++ daily", yet `createSmartLink` returns the text unchanged and inserts
no link construct — the trailing word-boundary assertion cannot hold after
the non-word character '+'. -/
theorem smartLink_metachar_counterexample :
    createSmartLink ("use C++ daily".data) ("C++".data) = ("use C++ daily".data) ∧
    findSub (createSmartLink ("use C++ daily".data) ("C++".data)) ("[[".data) =
      none :=
  ⟨by decide, by decide⟩

/-- Claim C4 (amended): a term containing regex metacharacters is matched
literally — the escaping makes the built pattern denote exactly the literal
term — but linking additionally requires the word-boundary assertions, which
fail at an end of the term whose character is a non-word character adjacent
to a non-word character or to the text's edge.  So standalone "C++" in
"use C++ daily" is not linked, while "C++" followed by a word character, as
in "I code C++x", is linked literally. -/
theorem smartLink_literal_amended :
    (∀ term : List Char, regexLiteralOf (escapeRegExp term) = term) ∧
    createSmartLink ("use C++ daily".data) ("C++".data) = ("use C++ daily".data) ∧
    createSmartLink ("I code C++x".data) ("C++".data) =
      ("I code [[C++|C++]]x".data) :=
  ⟨regexLiteral_escape, by decide, by decide⟩

/-- Claim C2 (code bug): the pipeline does not pass the SmartLinker output
unchanged to `replaceSelection` — line 90 of `src/main.ts` interposes
``linkedText.replace(`${definition}`)``, which replaces the first occurrence
of "[object Object]" by "undefined".  With the selection "[object Object]"
and a parsed term "zzz" the SmartLinker output is the unchanged selection,
but the editor receives "undefined". -/
theorem replaceSelection_bug :
    createSmartLink ("[object Object]".data) ("zzz".data) =
      ("[object Object]".data) ∧
    (handleTermDefinition ("[object Object]".data) false (some jC2) vEmpty none
      DEFAULT_SETTINGS).replaced = some ("undefined".data) :=
  ⟨by decide, by decide⟩

/-- Claim C1 (amended): `getDefinitionFromLLM` returns no value exactly when
the request fails or JSON parsing (or envelope access) fails — the
`as TermDefinition` cast checks nothing, so a missing or empty `term` or
`definition` field does not make the parse step fail.  Whenever the step
yields no truthy value, the pipeline aborts before any vault mutation. -/
theorem llmParse_amended :
    (∀ (rf : Bool) (p : Option Json),
      getDefinitionFromLLM rf p = none ↔ rf = true ∨ p = none) ∧
    (∀ (sel : List Char) (rf : Bool) (p : Option Json) (v : Vault)
      (af : Option TFile) (s : TermDefinitionPluginSettings),
      (∀ j, getDefinitionFromLLM rf p = some j → jsFalsy j = true) →
      (handleTermDefinition sel rf p v af s).vault = v ∧
      (handleTermDefinition sel rf p v af s).replaced = none) := by
  constructor
  · intro rf p
    cases rf <;> cases p <;> simp [getDefinitionFromLLM]
  · intro sel rf p v af s h
    cases hsel : sel.isEmpty with
    | true => simp [handleTermDefinition, hsel]
    | false =>
      cases hd : getDefinitionFromLLM rf p with
      | none => simp [handleTermDefinition, hsel, hd]
      | some j =>
        have hf := h j hd
        simp [handleTermDefinition, hsel, hd, hf]

/-- Claim C1 witness: a failed request aborts the run with the vault
untouched and no replacement. -/
theorem llmParse_amended_witness :
    (handleTermDefinition ("x".data) true none vEmpty none
      DEFAULT_SETTINGS).vault = vEmpty ∧
    (handleTermDefinition ("x".data) true none vEmpty none
      DEFAULT_SETTINGS).replaced = none :=
  llmParse_amended.2 ("x".data) true none vEmpty none DEFAULT_SETTINGS
    fun _ h => nomatch h

/-- Claim C1 counterexample: the raw payload "{}" parses to an object with
`term` and `definition` both missing, yet the parse step returns it (it does
not fail), and the run proceeds to mutate the vault: the folder "Glossary"
and the note file "Glossary/undefined.md" are created. -/
theorem llmParse_counterexample :
    getDefinitionFromLLM false (some jNoFields) = some jNoFields ∧
    (handleTermDefinition ("x".data) false (some jNoFields) vEmpty none
      DEFAULT_SETTINGS).vault.files =
      [("Glossary/undefined.md".data, "\n\n".data)] ∧
    (handleTermDefinition ("x".data) false (some jNoFields) vEmpty none
      DEFAULT_SETTINGS).vault.folders = [("Glossary".data)] :=
  ⟨rfl, by decide, by decide⟩

theorem strStartsWith_nil (l : List Char) : strStartsWith l [] = true := by
  cases l <;> rfl

theorem getTargetFolderGo_eq_none (p : List Char) :
    ∀ ms : List FolderMapping,
    (∀ m ∈ ms, strStartsWith p m.sourcePath = false) →
    getTargetFolderGo p ms = none := by
  intro ms
  induction ms with
  | nil => intro _; rfl
  | cons a rest ih =>
    intro h
    rw [getTargetFolderGo, h a (List.mem_cons_self a rest)]
    exact ih fun m hm => h m (List.mem_cons_of_mem a hm)

theorem getTargetFolderGo_first (p : List Char) (m : FolderMapping) :
    ∀ (l1 l2 : List FolderMapping),
    (∀ m2 ∈ l1, strStartsWith p m2.sourcePath = false) →
    strStartsWith p m.sourcePath = true →
    getTargetFolderGo p (l1 ++ m :: l2) = some m.targetPath := by
  intro l1
  induction l1 with
  | nil =>
    intro l2 _ hm
    rw [List.nil_append, getTargetFolderGo, hm]
    rfl
  | cons a rest ih =>
    intro l2 h hm
    rw [List.cons_append, getTargetFolderGo, h a (List.mem_cons_self a rest)]
    exact ih l2 (fun x hx => h x (List.mem_cons_of_mem a hx)) hm

/-- Claim C5: the router returns `defaultGlossaryPath` when there is no
active document and when no mapping's `sourcePath` is a prefix of the active
document's full path; otherwise it returns the `targetPath` of the first
matching mapping in list order.  It is a total function (it always returns). -/
theorem targetFolder_spec :
    (∀ s : TermDefinitionPluginSettings,
      getTargetFolder none s = s.defaultGlossaryPath) ∧
    (∀ (f : TFile) (s : TermDefinitionPluginSettings),
      (∀ m ∈ s.folderMappings, strStartsWith f.path m.sourcePath = false) →
      getTargetFolder (some f) s = s.defaultGlossaryPath) ∧
    (∀ (f : TFile) (s : TermDefinitionPluginSettings)
      (l1 l2 : List FolderMapping) (m : FolderMapping),
      s.folderMappings = l1 ++ m :: l2 →
      (∀ m2 ∈ l1, strStartsWith f.path m2.sourcePath = false) →
      strStartsWith f.path m.sourcePath = true →
      getTargetFolder (some f) s = m.targetPath) := by
  refine ⟨fun s => rfl, ?_, ?_⟩
  · intro f s h
    simp [getTargetFolder, getTargetFolderGo_eq_none f.path s.folderMappings h]
  · intro f s l1 l2 m he h1 hm
    simp [getTargetFolder, he, getTargetFolderGo_first f.path m l1 l2 h1 hm]

/-- Claim C5 witness: the spec's FolderRouter test vector — the document
"Projects/Notes/a.md" routes to "Projects/Glossary". -/
theorem targetFolder_spec_witness :
    getTargetFolder (some fC5) sC5 = ("Projects/Glossary".data) :=
  targetFolder_spec.2.2 fC5 sC5 [] [] mapProjects rfl
    (fun m2 hm2 => nomatch hm2) (by decide)

theorem exists_first_match (p : List Char) :
    ∀ ms : List FolderMapping,
    (∃ m ∈ ms, strStartsWith p m.sourcePath = true) →
    ∃ l1 m l2, ms = l1 ++ m :: l2 ∧ strStartsWith p m.sourcePath = true ∧
      ∀ m2 ∈ l1, strStartsWith p m2.sourcePath = false := by
  intro ms
  induction ms with
  | nil => rintro ⟨m, hm, _⟩; exact absurd hm (List.not_mem_nil m)
  | cons a rest ih =>
    rintro ⟨m, hm, hmt⟩
    cases ha : strStartsWith p a.sourcePath with
    | true => exact ⟨[], a, rest, rfl, ha, fun m2 hm2 => nomatch hm2⟩
    | false =>
      have hmr : m ∈ rest := by
        cases List.mem_cons.mp hm with
        | inl h => rw [h] at hmt; rw [hmt] at ha; exact Bool.noConfusion ha
        | inr h => exact h
      obtain ⟨l1, m1, l2, he, hm1, hfst⟩ := ih ⟨m, hmr, hmt⟩
      refine ⟨a :: l1, m1, l2, by rw [he, List.cons_append], hm1, ?_⟩
      intro m2 hm2
      cases List.mem_cons.mp hm2 with
      | inl h => rw [h]; exact ha
      | inr h => exact hfst m2 h

/-- Claim C10: when some mapping has an empty `sourcePath` (the shape the
settings UI's Add button creates), every non-null active document matches
some mapping — the prefix test accepts the empty string as a prefix of every
path — so the router returns the `targetPath` of the first matching mapping
and the default-branch is never taken. -/
theorem emptyMapping_spec (s : TermDefinitionPluginSettings) (f : TFile)
    (h : ∃ m ∈ s.folderMappings, m.sourcePath = ([] : List Char)) :
    ∃ l1 m l2, s.folderMappings = l1 ++ m :: l2 ∧
      strStartsWith f.path m.sourcePath = true ∧
      (∀ m2 ∈ l1, strStartsWith f.path m2.sourcePath = false) ∧
      getTargetFolder (some f) s = m.targetPath := by
  obtain ⟨m0, hm0, hemp⟩ := h
  have hmatch : strStartsWith f.path m0.sourcePath = true := by
    rw [hemp]; exact strStartsWith_nil f.path
  obtain ⟨l1, m, l2, he, hm, hfst⟩ :=
    exists_first_match f.path s.folderMappings ⟨m0, hm0, hmatch⟩
  refine ⟨l1, m, l2, he, hm, hfst, ?_⟩
  simp [getTargetFolder, he, getTargetFolderGo_first f.path m l1 l2 hfst hm]

/-- Claim C10 witness: with the single mapping having an empty source path,
an arbitrary active document routes to its target, not to the default. -/
theorem emptyMapping_spec_witness :
    ∃ l1 m l2, sC10.folderMappings = l1 ++ m :: l2 ∧
      strStartsWith fC10.path m.sourcePath = true ∧
      (∀ m2 ∈ l1, strStartsWith fC10.path m2.sourcePath = false) ∧
      getTargetFolder (some fC10) sC10 = m.targetPath :=
  emptyMapping_spec sC10 fC10 ⟨mapEmpty, List.mem_singleton.mpr rfl, rfl⟩

theorem existsPath_extra (extra : List (List Char)) (v : Vault)
    (q : List Char) (hq : q ∉ extra) :
    existsPath ⟨extra ++ v.folders, v.files⟩ q = existsPath v q := by
  simp [existsPath, List.mem_append, hq]

theorem existsPath_append_true (L : List (List Char)) (v : Vault)
    (q : List Char) (h : q ∈ L ∨ existsPath v q = true) :
    existsPath ⟨L ++ v.folders, v.files⟩ q = true := by
  simp only [existsPath, List.mem_append, Bool.or_eq_true, decide_eq_true_eq] at h ⊢
  rcases h with h | h | h
  · exact Or.inl (Or.inl h)
  · exact Or.inl (Or.inr h)
  · exact Or.inr h

theorem checkPoints_le :
    ∀ (segs : List (List Char)) (cur : List Char),
    ∀ q ∈ checkPoints cur segs, cur.length ≤ q.length := by
  intro segs
  induction segs with
  | nil => intro cur q hq; exact absurd hq (List.not_mem_nil q)
  | cons seg rest ih =>
    intro cur q hq
    rw [checkPoints] at hq
    cases List.mem_cons.mp hq with
    | inl h => rw [h, List.length_append]; omega
    | inr h =>
      have := ih (cur ++ seg ++ ['/']) q h
      simp only [List.length_append, List.length_cons, List.length_nil] at this
      omega

theorem ensureAux_spec :
    ∀ (segs : List (List Char)) (cur : List Char) (extra : List (List Char))
      (v : Vault),
    (∀ q ∈ checkPoints cur segs, q ∉ extra) →
    ensureAux ⟨extra ++ v.folders, v.files⟩ cur segs =
      (⟨((checkPoints cur segs).filter (fun q => !existsPath v q)).reverse ++
          (extra ++ v.folders), v.files⟩,
        (checkPoints cur segs).filter (fun q => !existsPath v q)) := by
  intro segs
  induction segs with
  | nil => intro cur extra v _; simp [ensureAux, checkPoints]
  | cons seg rest ih =>
    intro cur extra v h
    have hc : (cur ++ seg) ∉ extra :=
      h (cur ++ seg) (by rw [checkPoints]; exact List.mem_cons_self _ _)
    have hEx := existsPath_extra extra v (cur ++ seg) hc
    have htail : ∀ q ∈ checkPoints (cur ++ seg ++ ['/']) rest, q ∉ extra :=
      fun q hq => h q (by rw [checkPoints]; exact List.mem_cons_of_mem _ hq)
    rw [ensureAux, checkPoints]
    cases hcase : existsPath v (cur ++ seg) with
    | true =>
      rw [hEx, hcase]
      simp only [if_true]
      rw [ih (cur ++ seg ++ ['/']) extra v htail]
      simp [hcase]
    | false =>
      rw [hEx, hcase]
      simp only [Bool.false_eq_true, if_false]
      have hnew : ∀ q ∈ checkPoints (cur ++ seg ++ ['/']) rest,
          q ∉ (cur ++ seg) :: extra := by
        intro q hq hmem
        cases List.mem_cons.mp hmem with
        | inl he =>
          have hlen := checkPoints_le rest (cur ++ seg ++ ['/']) q hq
          rw [he] at hlen
          simp only [List.length_append, List.length_cons, List.length_nil]
            at hlen
          omega
        | inr he => exact htail q hq he
      have hstep := ih (cur ++ seg ++ ['/']) ((cur ++ seg) :: extra) v hnew
      rw [List.cons_append] at hstep
      rw [hstep]
      simp [hcase, List.append_assoc]

theorem ensureFolderExists_eq (v : Vault) (path : List Char) :
    ensureFolderExists v path =
      (⟨((checkPoints [] (splitOnSlash path)).filter
            (fun q => !existsPath v q)).reverse ++ v.folders, v.files⟩,
        (checkPoints [] (splitOnSlash path)).filter
          (fun q => !existsPath v q)) := by
  have := ensureAux_spec (splitOnSlash path) [] [] v
    fun q _ hq => absurd hq (List.not_mem_nil q)
  simpa [ensureFolderExists] using this

theorem ensure_files (v : Vault) (path : List Char) :
    (ensureFolderExists v path).1.files = v.files := by
  rw [ensureFolderExists_eq]

/-- Claim C6: `ensureFolderExists` walks the accumulated slash-separated
prefixes left to right and creates exactly those that do not yet exist, in
that order; a second run over the same path creates nothing (idempotence);
on "A/B/C" over an empty vault it creates "A", "A/B", "A/B/C" in that order;
and the note write adds no folder — the folder chain is exactly the one the
ensure step produced, established before the file is written. -/
theorem folderCreation_spec :
    (∀ (v : Vault) (path : List Char),
      (ensureFolderExists v path).2 =
        (checkPoints [] (splitOnSlash path)).filter (fun q => !existsPath v q)) ∧
    (∀ (v : Vault) (path : List Char),
      (ensureFolderExists (ensureFolderExists v path).1 path).2 = []) ∧
    (ensureFolderExists vEmpty ("A/B/C".data)).2 =
      [("A".data), ("A/B".data), ("A/B/C".data)] ∧
    (∀ (v : Vault) (af : Option TFile) (s : TermDefinitionPluginSettings)
      (j : Json),
      (createDefinitionNote v af s j).1.folders =
        (ensureFolderExists v (getTargetFolder af s)).1.folders) := by
  refine ⟨?_, ?_, by decide, ?_⟩
  · intro v path
    rw [ensureFolderExists_eq]
  · intro v path
    have h1 := ensureFolderExists_eq v path
    rw [ensureFolderExists_eq ((ensureFolderExists v path).1)]
    refine List.filter_eq_nil_iff.mpr ?_
    intro q hq
    have htrue : existsPath ((ensureFolderExists v path).1) q = true := by
      rw [h1]
      apply existsPath_append_true
      cases hv : existsPath v q with
      | true => exact Or.inr rfl
      | false =>
        left
        rw [List.mem_reverse]
        exact List.mem_filter.mpr ⟨hq, by rw [hv]; rfl⟩
    simp [htrue]
  · intro v af s j
    by_cases hex : existsPath (ensureFolderExists v (getTargetFolder af s)).1
        (notePathOf j (getTargetFolder af s)) = true
    · simp [createDefinitionNote, hex]
    · simp [createDefinitionNote, hex]

/-- Claim C7: when a file already occupies the computed note path, note
materialization fails with `noteAlreadyExists`, the vault's files — in
particular the occupying file's content — are unchanged, and the run ends
without calling `replaceSelection`. -/
theorem duplicateNote_spec (v : Vault) (af : Option TFile)
    (s : TermDefinitionPluginSettings) (j : Json) (c sel : List Char)
    (hmem : (notePathOf j (getTargetFolder af s), c) ∈ v.files)
    (hsel : sel.isEmpty = false) (hj : jsFalsy j = false) :
    (createDefinitionNote v af s j).2 = .error PErr.noteAlreadyExists ∧
    (createDefinitionNote v af s j).1.files = v.files ∧
    (handleTermDefinition sel false (some j) v af s).replaced = none ∧
    (handleTermDefinition sel false (some j) v af s).vault.files = v.files := by
  have hfi := ensure_files v (getTargetFolder af s)
  have hex : existsPath (ensureFolderExists v (getTargetFolder af s)).1
      (notePathOf j (getTargetFolder af s)) = true := by
    simp only [existsPath, hfi, Bool.or_eq_true, decide_eq_true_eq,
      List.any_eq_true]
    exact Or.inr ⟨_, hmem, rfl⟩
  have hcd : createDefinitionNote v af s j =
      ((ensureFolderExists v (getTargetFolder af s)).1,
        .error PErr.noteAlreadyExists) := by
    simp [createDefinitionNote, hex]
  refine ⟨by rw [hcd], by rw [hcd]; exact hfi, ?_, ?_⟩
  · simp [handleTermDefinition, hsel, getDefinitionFromLLM, hj, hcd]
  · simp [handleTermDefinition, hsel, getDefinitionFromLLM, hj, hcd, hfi]

/-- Claim C7 witness: a vault already holding "Glossary/gpu.md" makes the
run for term "gpu" fail with `noteAlreadyExists`, leaving the old file and
performing no replacement. -/
theorem duplicateNote_spec_witness :
    (createDefinitionNote vC7 none DEFAULT_SETTINGS jGpu).2 =
      .error PErr.noteAlreadyExists ∧
    (createDefinitionNote vC7 none DEFAULT_SETTINGS jGpu).1.files = vC7.files ∧
    (handleTermDefinition ("x".data) false (some jGpu) vC7 none
      DEFAULT_SETTINGS).replaced = none ∧
    (handleTermDefinition ("x".data) false (some jGpu) vC7 none
      DEFAULT_SETTINGS).vault.files = vC7.files :=
  duplicateNote_spec vC7 none DEFAULT_SETTINGS jGpu ("old".data) ("x".data)
    (by decide) rfl rfl

/-- Claim C8: the created note's body is the definition text, a newline, a
blank line, and — exactly when an active document is known — the
back-reference line "- Source: [[basename]]"; with no active document the
back-reference line is omitted entirely. -/
theorem noteBody_spec (v : Vault) (af : Option TFile)
    (s : TermDefinitionPluginSettings) (j : Json) (d : List Char)
    (hdef : jsGet j ("definition".data) = some (Json.str d))
    (hfree : existsPath (ensureFolderExists v (getTargetFolder af s)).1
      (notePathOf j (getTargetFolder af s)) = false) :
    (createDefinitionNote v af s j).1.files =
      (notePathOf j (getTargetFolder af s),
        d ++ '\n' :: '\n' :: srcLine af) :: v.files ∧
    srcLine none = [] ∧
    (∀ f, srcLine (some f) =
      ("- Source: [[".data) ++ f.basename ++ ("]]".data)) := by
  refine ⟨?_, rfl, fun f => rfl⟩
  have hfi := ensure_files v (getTargetFolder af s)
  simp [createDefinitionNote, hfree, hfi, noteContent, hdef, joinLines,
    jsJoinElem, jsTemplate]

/-- Claim C8 witness: for term "gpu" created from the document "doc", the
note body is the definition, a blank line, and the source back-reference. -/
theorem noteBody_spec_witness :
    (createDefinitionNote vEmpty (some fDoc) DEFAULT_SETTINGS jGpu).1.files =
      (notePathOf jGpu (getTargetFolder (some fDoc) DEFAULT_SETTINGS),
        ("a graphics processor".data) ++ '\n' :: '\n' :: srcLine (some fDoc))
        :: vEmpty.files :=
  (noteBody_spec vEmpty (some fDoc) DEFAULT_SETTINGS jGpu
    ("a graphics processor".data) rfl rfl).1

/-- Claim C9 (amended): on success `createDefinitionNote` returns
`notePath.replace(".md", "")`, i.e. the note path with the *first* occurrence
of ".md" removed — equal to stripping the trailing extension exactly when the
first occurrence of ".md" is the extension itself; and the pipeline discards
the returned identifier: whenever the replacement step is reached, the text
substituted into the document is computed from the selection and the parsed
term only (the link target is the term, not the returned path). -/
theorem returnId_amended :
    (∀ (v : Vault) (af : Option TFile) (s : TermDefinitionPluginSettings)
      (j : Json),
      findSub (notePathOf j (getTargetFolder af s)) (".md".data) =
        some (stemOf j (getTargetFolder af s)).length →
      existsPath (ensureFolderExists v (getTargetFolder af s)).1
        (notePathOf j (getTargetFolder af s)) = false →
      (createDefinitionNote v af s j).2 =
        .ok (stemOf j (getTargetFolder af s))) ∧
    (∀ (sel : List Char) (j : Json) (v : Vault) (af : Option TFile)
      (s : TermDefinitionPluginSettings),
      (handleTermDefinition sel false (some j) v af s).replaced = none ∨
      ∃ t, jsGet j ("term".data) = some (Json.str t) ∧
        (handleTermDefinition sel false (some j) v af s).replaced =
          some (replaceFirstStr (createSmartLink sel t) (jsTemplate j)
            ("undefined".data))) := by
  constructor
  · intro v af s j hfind hfree
    have h3 : (".md".data).length = 3 := by decide
    have hlen : (notePathOf j (getTargetFolder af s)).length =
        (stemOf j (getTargetFolder af s)).length + 3 := by
      rw [notePathOf, List.length_append, h3]
    have hdrop : (notePathOf j (getTargetFolder af s)).drop
        ((stemOf j (getTargetFolder af s)).length + (".md".data).length) = [] := by
      rw [notePathOf]
      exact List.drop_eq_nil_of_le (le_of_eq (List.length_append _ _))
    have htake : (notePathOf j (getTargetFolder af s)).take
        (stemOf j (getTargetFolder af s)).length =
        stemOf j (getTargetFolder af s) := by
      rw [notePathOf]
      exact List.take_left _ _
    have hrep : replaceFirstStr (notePathOf j (getTargetFolder af s))
        (".md".data) [] = stemOf j (getTargetFolder af s) := by
      rw [replaceFirstStr, hfind]
      show (notePathOf j (getTargetFolder af s)).take
          (stemOf j (getTargetFolder af s)).length ++ [] ++
          (notePathOf j (getTargetFolder af s)).drop
            ((stemOf j (getTargetFolder af s)).length + (".md".data).length) =
        stemOf j (getTargetFolder af s)
      rw [htake, hdrop]
      simp
    simp [createDefinitionNote, hfree, hrep]
  · intro sel j v af s
    cases hsel : sel.isEmpty with
    | true => exact Or.inl (by simp [handleTermDefinition, hsel])
    | false =>
      cases hf : jsFalsy j with
      | true =>
        exact Or.inl
          (by simp [handleTermDefinition, hsel, getDefinitionFromLLM, hf])
      | false =>
        rcases hcd : createDefinitionNote v af s j with ⟨v1, r⟩
        cases r with
        | error e =>
          exact Or.inl (by
            simp [handleTermDefinition, hsel, getDefinitionFromLLM, hf, hcd])
        | ok np =>
          cases ht : jsGet j ("term".data) with
          | none =>
            exact Or.inl (by
              simp [handleTermDefinition, hsel, getDefinitionFromLLM, hf,
                hcd, ht])
          | some tj =>
            cases tj with
            | str t =>
              refine Or.inr ⟨t, rfl, ?_⟩
              simp [handleTermDefinition, hsel, getDefinitionFromLLM, hf,
                hcd, ht]
            | null =>
              exact Or.inl (by
                simp [handleTermDefinition, hsel, getDefinitionFromLLM, hf,
                  hcd, ht])
            | bool b =>
              exact Or.inl (by
                simp [handleTermDefinition, hsel, getDefinitionFromLLM, hf,
                  hcd, ht])
            | num n =>
              exact Or.inl (by
                simp [handleTermDefinition, hsel, getDefinitionFromLLM, hf,
                  hcd, ht])
            | arr xs =>
              exact Or.inl (by
                simp [handleTermDefinition, hsel, getDefinitionFromLLM, hf,
                  hcd, ht])
            | obj fs =>
              exact Or.inl (by
                simp [handleTermDefinition, hsel, getDefinitionFromLLM, hf,
                  hcd, ht])

/-- Claim C9 counterexample: with term "foo.mdx" the note path is
"Glossary/foo.mdx.md" and the returned identifier is "Glossary/foox.md" —
the first ".md" removed, not the trailing extension ("Glossary/foo.mdx");
and the text substituted into the document links to the term "foo.mdx", not
to the returned identifier. -/
theorem returnId_counterexample :
    (createDefinitionNote vEmpty none DEFAULT_SETTINGS jC9).2 =
      .ok ("Glossary/foox.md".data) ∧
    ("Glossary/foox.md".data) ≠ ("Glossary/foo.mdx".data) ∧
    (handleTermDefinition ("foo.mdx is neat".data) false (some jC9) vEmpty
      none DEFAULT_SETTINGS).replaced =
      some ("[[foo.mdx|foo.mdx]] is neat".data) :=
  ⟨rfl, by decide, by decide⟩

/-- Claim C9 witness: for term "gpu" the first ".md" occurrence is the
extension, so the returned identifier is the extension-stripped stem. -/
theorem returnId_amended_witness :
    (createDefinitionNote vEmpty none DEFAULT_SETTINGS jGpu).2 =
      .ok (stemOf jGpu (getTargetFolder none DEFAULT_SETTINGS)) :=
  returnId_amended.1 vEmpty none DEFAULT_SETTINGS jGpu rfl rfl
